import Mathlib

/-!
Shallow embedding of the cron-expression parser from `vitaminniy/go-cron`
(package `cron`: `ParseExpression`, `parseTime`, `parseIntegral`,
`parseRange`, `parseSteps`, `parseIntervals`), together with theorems
checking the natural-language specification against it.

Modelling conventions:
* Go strings are modelled as `List Char`; `strings.Split` / `strings.SplitN`
  on a single-character separator are modelled by `splitChar` / `splitNChar`.
* Go `uint8` values are modelled as `Nat`.  In the source every arithmetic
  step stays far below 256 for the five canonical field bounds
  (max ≤ 59, so `max+1`, `start+min`, `i+every`, `i+1` all stay ≤ 118 < 256),
  so plain `Nat` arithmetic agrees with the `uint8` arithmetic of the code.
  Theorems about a generic bound carry the hypothesis `ValidBound`
  (`min ≤ max ∧ 2*max < 256`), which delimits exactly the regime in which
  no `uint8` operation of the source can wrap; all five canonical bounds
  satisfy it.
* Go's `(value, error)` returns are modelled with `Except`; the error
  constructors mirror the `fmt.Errorf` wrapping structure of the source.
* The out-of-bounds slice indexing that `ParseExpression` can perform on a
  short input (Go runtime panic) is modelled by the explicit outcome
  `ExprOutcome.panic`: each `args[i]` access goes through `List.get?`.
-/

deriving instance DecidableEq for Except

namespace GoCron

/-! ### String splitting (`strings.Split`, `strings.SplitN`) -/

/-- Locates the first occurrence of `sep`: returns the characters before it
and the characters after it, or `none` when `sep` does not occur. -/
def breakAtChar (sep : Char) : List Char → Option (List Char × List Char)
  | [] => none
  | c :: cs =>
    if c = sep then some ([], cs)
    else
      match breakAtChar sep cs with
      | none => none
      | some (pre, post) => some (c :: pre, post)

/-- Models `strings.SplitN(s, sep, n)` for a single-character separator and
`n > 0`: at most `n` parts, the last part keeping the rest of the string
unsplit.  (`strings.SplitN` with `n = 0` returns an empty slice.) -/
def splitNChar (sep : Char) : Nat → List Char → List (List Char)
  | 0, _ => []
  | Nat.succ n, s =>
    if n = 0 then [s]
    else
      match breakAtChar sep s with
      | none => [s]
      | some (pre, post) => pre :: splitNChar sep n post

/-- Models `strings.Split(s, sep)` for a single-character separator:
splits at every occurrence of `sep` (so `split "" = [""]`,
`split "a-b" = ["a", "b"]`, `split "-" = ["", ""]`). -/
def splitChar (sep : Char) : List Char → List (List Char)
  | [] => [[]]
  | c :: cs =>
    match splitChar sep cs with
    | [] => [[c]]
    | a :: as => if c = sep then [] :: a :: as else (c :: a) :: as

/-! ### Error taxonomy

Each constructor stands for one of the error strings produced by the source;
the wrapping constructors mirror the `fmt.Errorf("...: %w", err)` chains. -/

/-- Errors of the field-level parsers (`parseTime` and the four leaf
parsers).  Constructor ↦ source error string:
* `emptyField` ↦ "expected arg but got empty string"
* `malformedInteger` ↦ `strconv.ParseUint` failure inside `parseIntegral`
* `outOfBound` ↦ "value must be in range [min; max]"
* `exactWrap` ↦ "could not parse exact value: %w"
* `malformedRange` ↦ "expected range but got %+v"
* `rangeBegin` / `rangeEnd` ↦ "invalid begin/end of range %q: %w"
* `invertedRange` ↦ "invalid range [first; end]"
* `emptyStep` ↦ "expected step but got an empty string"
* `stepWrap` ↦ "invalid step %q: %w"
* `malformedInterval` ↦ "malformed intervals arg"
* `intervalStart` ↦ "could not parse starting point: %w"
* `intervalEvery` ↦ "could not parse repeated interval: %w"
* `zeroInterval` ↦ "repeated interval must be greater than 0"
* `indivisibleInterval` ↦ "invalid repeated interval: every for max+1" -/
inductive FieldErr where
  | emptyField : FieldErr
  | malformedInteger : FieldErr
  | outOfBound (mn mx : Nat) : FieldErr
  | exactWrap (e : FieldErr) : FieldErr
  | malformedRange (parts : List (List Char)) : FieldErr
  | rangeBegin (tok : List Char) (e : FieldErr) : FieldErr
  | rangeEnd (tok : List Char) (e : FieldErr) : FieldErr
  | invertedRange (first last : Nat) : FieldErr
  | emptyStep : FieldErr
  | stepWrap (tok : List Char) (e : FieldErr) : FieldErr
  | malformedInterval : FieldErr
  | intervalStart (e : FieldErr) : FieldErr
  | intervalEvery (e : FieldErr) : FieldErr
  | zeroInterval : FieldErr
  | indivisibleInterval (every maxSucc : Nat) : FieldErr
deriving DecidableEq

/-- Errors of `ParseExpression`; the five field constructors mirror the
"invalid ... arg: %w" wrappers naming the failing field, `emptyCommand`
mirrors "expected command but got an empty string". -/
inductive ExprErr where
  | invalidMinutes (e : FieldErr) : ExprErr
  | invalidHours (e : FieldErr) : ExprErr
  | invalidMonthDays (e : FieldErr) : ExprErr
  | invalidMonth (e : FieldErr) : ExprErr
  | invalidWeekDays (e : FieldErr) : ExprErr
  | emptyCommand : ExprErr
deriving DecidableEq

/-- The `Expression` struct of the source. -/
structure Expression where
  Minutes : List Nat
  Hours : List Nat
  MonthDays : List Nat
  Months : List Nat
  WeekDays : List Nat
  Command : List Char
deriving DecidableEq

/-- Outcome of `ParseExpression`: a Go runtime panic (out-of-range slice
index), an error return, or a successful parse. -/
inductive ExprOutcome where
  | panic : ExprOutcome
  | fail (e : ExprErr) : ExprOutcome
  | ok (e : Expression) : ExprOutcome
deriving DecidableEq

/-! ### Field bounds (the constants of the source) -/

def minutesMin : Nat := 0
def minutesMax : Nat := 59
def hoursMin : Nat := 0
def hoursMax : Nat := 23
def daysInMonthMin : Nat := 1
def daysInMonthMax : Nat := 31
def monthsMin : Nat := 1
def monthsMax : Nat := 12
def weekdaysMin : Nat := 0
def weekdaysMax : Nat := 6

/-- Number of args in an expression (`numExressionArgs` in the source,
spelling kept). -/
def numExressionArgs : Nat := 6

/-- Bounds for which no `uint8` arithmetic step of the source can wrap
around 256, so the `Nat` model agrees with the code; every canonical field
bound of the source satisfies this (max ≤ 59). -/
def ValidBound (mn mx : Nat) : Prop := mn ≤ mx ∧ 2 * mx < 256

instance (mn mx : Nat) : Decidable (ValidBound mn mx) := by
  unfold ValidBound; infer_instance

/-! ### Leaf parsers -/

/-- Models `strconv.ParseUint(s, 10, 8)`: the token must be nonempty, all
base-10 digits, and denote a value that fits in 8 bits. -/
def parseUint8 (s : List Char) : Option Nat :=
  if s.isEmpty then none
  else if s.all Char.isDigit then
    let v := s.foldl (fun a c => a * 10 + (c.toNat - '0'.toNat)) 0
    if v ≤ 255 then some v else none
  else none

/-- Models `parseIntegral`: parse via `parseUint8`, then bound-check
against `[mn, mx]`. -/
def parseIntegral (s : List Char) (mn mx : Nat) : Except FieldErr Nat :=
  match parseUint8 s with
  | none => .error .malformedInteger
  | some v =>
    if v < mn || v > mx then .error (.outOfBound mn mx) else .ok v

/-- The inclusive counting loop `for i := first; i <= last; i++`
used by the wildcard branch of `parseTime` and by `parseRange`. -/
def rangeInclusive (first last : Nat) : List Nat :=
  List.range' first (last + 1 - first)

/-- Models `parseRange`. -/
def parseRange (rnge : List (List Char)) (mn mx : Nat) :
    Except FieldErr (List Nat) :=
  match rnge with
  | [t0, t1] =>
    match parseIntegral t0 mn mx with
    | .error e => .error (.rangeBegin t0 e)
    | .ok first =>
      match parseIntegral t1 mn mx with
      | .error e => .error (.rangeEnd t1 e)
      | .ok last =>
        if first ≥ last then .error (.invertedRange first last)
        else .ok (rangeInclusive first last)
  | _ => .error (.malformedRange rnge)

/-- The loop of `parseSteps`; `acc` is the `result` slice.  The Go code
keeps a companion set `unique` whose members are exactly the members of
`result`, so set membership is modelled by list membership in `acc`. -/
def parseStepsAux (mn mx : Nat) : List (List Char) → List Nat →
    Except FieldErr (List Nat)
  | [], acc => .ok acc
  | s :: rest, acc =>
    if s.isEmpty then .error .emptyStep
    else
      match parseIntegral s mn mx with
      | .error e => .error (.stepWrap s e)
      | .ok step =>
        if step ∈ acc then parseStepsAux mn mx rest acc
        else parseStepsAux mn mx rest (acc ++ [step])

/-- Models `parseSteps`. -/
def parseSteps (steps : List (List Char)) (mn mx : Nat) :
    Except FieldErr (List Nat) :=
  parseStepsAux mn mx steps []

/-- The expansion loop of `parseIntervals`:
`for i := start+min; i < max; i += every`.  For `every ≥ 1` the loop emits
`i, i+every, i+2*every, …` while the term is `< mx`, i.e. exactly
`⌈(mx - i) / every⌉` terms (the only way `parseIntervals` reaches the loop,
since `every == 0` is rejected first). -/
def intervalLoop (mx every i : Nat) : List Nat :=
  List.range' i ((mx - i + every - 1) / every) every

/-- The `start` computation of `parseIntervals`: `start := 0`, overwritten
by `parseIntegral` unless the token is the wildcard `*`. -/
def parseStart (tok : List Char) (mn mx : Nat) : Except FieldErr Nat :=
  if tok = ['*'] then .ok 0
  else
    match parseIntegral tok mn mx with
    | .error e => .error (.intervalStart e)
    | .ok s => .ok s

/-- Models `parseIntervals`. -/
def parseIntervals (intervals : List (List Char)) (mn mx : Nat) :
    Except FieldErr (List Nat) :=
  match intervals with
  | [t0, t1] =>
    match parseStart t0 mn mx with
    | .error e => .error e
    | .ok start =>
      match parseIntegral t1 mn mx with
      | .error e => .error (.intervalEvery e)
      | .ok every =>
        if every = 0 then .error .zeroInterval
        else if (mx + 1) % every ≠ 0 then
          .error (.indivisibleInterval every (mx + 1))
        else .ok (intervalLoop mx every (start + mn))
  | _ => .error .malformedInterval

/-- Models `parseTime`, the field dispatcher.  The source binds each split
(`rnge`, `steps`, `intervals`) to a local before testing its length; the
locals are inlined here. -/
def parseTime (arg : List Char) (mn mx : Nat) : Except FieldErr (List Nat) :=
  if arg = [] then .error .emptyField
  else if arg = ['*'] then .ok (rangeInclusive mn mx)
  else if (splitChar '-' arg).length > 1 then
    parseRange (splitChar '-' arg) mn mx
  else if (splitChar ',' arg).length > 1 then
    parseSteps (splitChar ',' arg) mn mx
  else if (splitChar '/' arg).length > 1 then
    parseIntervals (splitChar '/' arg) mn mx
  else
    match parseIntegral arg mn mx with
    | .error e => .error (.exactWrap e)
    | .ok exact => .ok [exact]

/-- Models `ParseExpression`.  Every positional access `args[i]` of the
source is modelled by `List.get?`; a `none` result is the Go runtime panic
(index out of range), which the source does not guard against. -/
def ParseExpression (line : List Char) : ExprOutcome :=
  let args := splitNChar ' ' numExressionArgs line
  match args.get? 0 with
  | none => .panic
  | some a0 =>
    match parseTime a0 minutesMin minutesMax with
    | .error e => .fail (.invalidMinutes e)
    | .ok minutes =>
      match args.get? 1 with
      | none => .panic
      | some a1 =>
        match parseTime a1 hoursMin hoursMax with
        | .error e => .fail (.invalidHours e)
        | .ok hours =>
          match args.get? 2 with
          | none => .panic
          | some a2 =>
            match parseTime a2 daysInMonthMin daysInMonthMax with
            | .error e => .fail (.invalidMonthDays e)
            | .ok monthDays =>
              match args.get? 3 with
              | none => .panic
              | some a3 =>
                match parseTime a3 monthsMin monthsMax with
                | .error e => .fail (.invalidMonth e)
                | .ok months =>
                  match args.get? 4 with
                  | none => .panic
                  | some a4 =>
                    match parseTime a4 weekdaysMin weekdaysMax with
                    | .error e => .fail (.invalidWeekDays e)
                    | .ok weekDays =>
                      match args.get? 5 with
                      | none => .panic
                      | some a5 =>
                        if a5 = [] then .fail .emptyCommand
                        else .ok ⟨minutes, hours, monthDays, months,
                                  weekDays, a5⟩

/-- One step of first-occurrence deduplication: keep `v` only if it has not
been seen already. -/
def dedupInsert (acc : List Nat) (v : Nat) : List Nat :=
  if v ∈ acc then acc else acc ++ [v]

/-- Follows the spec's words for the step-list output: "duplicate values
collapse to one occurrence at the position of first appearance; order of
first appearances is preserved exactly" — keep each value the first time it
is seen, in order. -/
def specDedup (vals : List Nat) : List Nat :=
  vals.foldl dedupInsert []

/-! ### Lemmas about splitting -/

theorem splitChar_ne_nil (sep : Char) (s : List Char) : splitChar sep s ≠ [] := by
  cases s with
  | nil => simp [splitChar]
  | cons c cs =>
    simp only [splitChar]
    match h : splitChar sep cs with
    | [] => simp
    | a :: as =>
      by_cases hc : c = sep <;> simp [hc]

theorem one_lt_splitChar_length {sep : Char} {s : List Char} :
    1 < (splitChar sep s).length ↔ sep ∈ s := by
  induction s with
  | nil => simp [splitChar]
  | cons c cs ih =>
    simp only [splitChar]
    match h : splitChar sep cs with
    | [] => exact absurd h (splitChar_ne_nil sep cs)
    | a :: as =>
      rw [h] at ih
      by_cases hc : c = sep
      · subst hc
        simp [List.mem_cons]
      · simp only [if_neg hc, List.length_cons, List.mem_cons]
        simp only [List.length_cons] at ih
        constructor
        · intro hlen
          exact Or.inr (ih.mp hlen)
        · intro hmem
          rcases hmem with hmem | hmem
          · exact absurd hmem.symm hc
          · exact ih.mpr hmem

theorem splitChar_of_not_mem {sep : Char} {s : List Char} (h : sep ∉ s) :
    splitChar sep s = [s] := by
  induction s with
  | nil => simp [splitChar]
  | cons c cs ih =>
    simp only [List.mem_cons, not_or] at h
    have hc : c ≠ sep := fun hh => h.1 hh.symm
    simp only [splitChar, ih h.2, if_neg hc]

theorem breakAtChar_append {sep : Char} {t : List Char} (rest : List Char)
    (h : sep ∉ t) : breakAtChar sep (t ++ sep :: rest) = some (t, rest) := by
  induction t with
  | nil => simp [breakAtChar]
  | cons c cs ih =>
    simp only [List.mem_cons, not_or] at h
    have hc : c ≠ sep := fun hh => h.1 hh.symm
    simp only [List.cons_append, breakAtChar, if_neg hc, List.append_eq, ih h.2]

theorem splitNChar_one (sep : Char) (s : List Char) :
    splitNChar sep 1 s = [s] := rfl

theorem splitNChar_cons {sep : Char} {n : Nat} (hn : 1 ≤ n) {t : List Char}
    (h : sep ∉ t) (rest : List Char) :
    splitNChar sep (n + 1) (t ++ sep :: rest) = t :: splitNChar sep n rest := by
  simp only [splitNChar, if_neg (Nat.one_le_iff_ne_zero.mp hn),
    breakAtChar_append rest h]

theorem splitNChar_length_le (sep : Char) :
    ∀ (n : Nat) (s : List Char), (splitNChar sep n s).length ≤ max n 1
  | 0, s => by simp [splitNChar]
  | Nat.succ n, s => by
    simp only [splitNChar]
    by_cases hn : n = 0
    · simp [hn]
    · simp only [if_neg hn]
      match breakAtChar sep s with
      | none => simp
      | some (pre, post) =>
        have := splitNChar_length_le sep n post
        simp only [List.length_cons]
        omega

/-! ### Lemmas about the integral parser -/

theorem parseIntegral_ok_bounds {s : List Char} {mn mx v : Nat}
    (h : parseIntegral s mn mx = .ok v) : mn ≤ v ∧ v ≤ mx := by
  unfold parseIntegral at h
  split at h
  · exact absurd h (by simp)
  · split at h
    · exact absurd h (by simp)
    · rename_i hb
      simp only [Except.ok.injEq] at h
      subst h
      simp only [Bool.or_eq_true, decide_eq_true_eq, not_or] at hb
      omega

theorem parseIntegral_ok_ne_nil {s : List Char} {mn mx v : Nat}
    (h : parseIntegral s mn mx = .ok v) : s ≠ [] := by
  intro hs
  subst hs
  simp [parseIntegral, parseUint8] at h

/-! ### Lemmas about the counting loops -/

theorem mem_rangeInclusive {a b v : Nat} :
    v ∈ rangeInclusive a b ↔ a ≤ v ∧ v < b + 1 := by
  unfold rangeInclusive
  rw [List.mem_range'_1]
  omega

theorem pairwise_rangeInclusive (a b : Nat) :
    (rangeInclusive a b).Pairwise (· < ·) :=
  List.pairwise_lt_range' a (b + 1 - a) 1 (by simp)

theorem lt_ceil_div_iff {d e k : Nat} (he : 0 < e) :
    k < (d + e - 1) / e ↔ e * k < d := by
  rw [Nat.lt_iff_add_one_le, Nat.le_div_iff_mul_le he]
  have h1 : (k + 1) * e = e * k + e := by ring
  rw [h1]
  omega

theorem mem_intervalLoop {mx every i v : Nat} (he : 0 < every) :
    v ∈ intervalLoop mx every i ↔ ∃ k, v = i + k * every ∧ v < mx := by
  unfold intervalLoop
  rw [List.mem_range']
  constructor
  · rintro ⟨k, hk, rfl⟩
    rw [lt_ceil_div_iff he] at hk
    exact ⟨k, by rw [Nat.mul_comm], by omega⟩
  · rintro ⟨k, rfl, hv⟩
    refine ⟨k, ?_, by rw [Nat.mul_comm]⟩
    rw [lt_ceil_div_iff he, Nat.mul_comm every k]
    omega

theorem pairwise_intervalLoop (mx every i : Nat) (he : 0 < every) :
    (intervalLoop mx every i).Pairwise (· < ·) :=
  List.pairwise_lt_range' i _ every he

/-! ### Lemmas about the step-list parser -/

theorem parseStepsAux_ok_forall₂ {mn mx : Nat} :
    ∀ {steps : List (List Char)} {vals : List Nat} (acc : List Nat),
      List.Forall₂ (fun s v => parseIntegral s mn mx = .ok v) steps vals →
      parseStepsAux mn mx steps acc = .ok (vals.foldl dedupInsert acc)
  | [], [], acc, _ => rfl
  | s :: rest, v :: vs, acc, h => by
    rcases h with _ | ⟨hsv, hrest⟩
    have hne : s ≠ [] := parseIntegral_ok_ne_nil hsv
    simp only [parseStepsAux, List.isEmpty_eq_true, if_neg hne, hsv,
      List.foldl_cons]
    unfold dedupInsert
    by_cases hv : v ∈ acc
    · simp only [if_pos hv]
      exact parseStepsAux_ok_forall₂ acc hrest
    · simp only [if_neg hv]
      exact parseStepsAux_ok_forall₂ (acc ++ [v]) hrest

theorem parseStepsAux_error_of_mem_nil {mn mx : Nat} :
    ∀ {steps : List (List Char)} (acc : List Nat), [] ∈ steps →
      ∃ e, parseStepsAux mn mx steps acc = .error e
  | s :: rest, acc, h => by
    by_cases hs : s = []
    · subst hs
      exact ⟨.emptyStep, by simp [parseStepsAux]⟩
    · rcases List.mem_cons.mp h with h | h
      · exact absurd h.symm hs
      · simp only [parseStepsAux, List.isEmpty_eq_true, if_neg hs]
        match hp : parseIntegral s mn mx with
        | .error e => exact ⟨.stepWrap s e, rfl⟩
        | .ok v =>
          by_cases hv : v ∈ acc
          · simp only [if_pos hv]
            exact parseStepsAux_error_of_mem_nil acc h
          · simp only [if_neg hv]
            exact parseStepsAux_error_of_mem_nil (acc ++ [v]) h

theorem parseStepsAux_emptyStep {mn mx : Nat} :
    ∀ {pre : List (List Char)} (rest : List (List Char)) (acc : List Nat),
      (∀ s ∈ pre, ∃ v, parseIntegral s mn mx = .ok v) →
      parseStepsAux mn mx (pre ++ [] :: rest) acc = .error .emptyStep
  | [], rest, acc, _ => by simp [parseStepsAux]
  | s :: pre, rest, acc, h => by
    obtain ⟨v, hv⟩ := h s (List.mem_cons_self s pre)
    have hne : s ≠ [] := parseIntegral_ok_ne_nil hv
    have hpre : ∀ t ∈ pre, ∃ w, parseIntegral t mn mx = .ok w :=
      fun t ht => h t (List.mem_cons_of_mem s ht)
    simp only [List.cons_append, parseStepsAux, List.isEmpty_eq_true,
      if_neg hne, hv]
    by_cases hm : v ∈ acc
    · simp only [if_pos hm]
      exact parseStepsAux_emptyStep rest acc hpre
    · simp only [if_neg hm]
      exact parseStepsAux_emptyStep rest (acc ++ [v]) hpre

theorem parseStepsAux_stepWrap {mn mx : Nat} :
    ∀ {pre : List (List Char)} (s : List Char) (rest : List (List Char))
      (acc : List Nat) (e : FieldErr),
      (∀ t ∈ pre, ∃ v, parseIntegral t mn mx = .ok v) →
      s ≠ [] → parseIntegral s mn mx = .error e →
      parseStepsAux mn mx (pre ++ s :: rest) acc = .error (.stepWrap s e)
  | [], s, rest, acc, e => by
    intro _ hs he
    simp only [List.nil_append, parseStepsAux, List.isEmpty_eq_true,
      if_neg hs, he]
  | t :: pre, s, rest, acc, e => by
    intro hpre hs he
    obtain ⟨v, hv⟩ := hpre t (List.mem_cons_self t pre)
    have hne : t ≠ [] := parseIntegral_ok_ne_nil hv
    have hpre' : ∀ u ∈ pre, ∃ w, parseIntegral u mn mx = .ok w :=
      fun u hu => hpre u (List.mem_cons_of_mem t hu)
    simp only [List.cons_append, parseStepsAux, List.isEmpty_eq_true,
      if_neg hne, hv]
    by_cases hm : v ∈ acc
    · simp only [if_pos hm]
      exact parseStepsAux_stepWrap s rest acc e hpre' hs he
    · simp only [if_neg hm]
      exact parseStepsAux_stepWrap s rest (acc ++ [v]) e hpre' hs he

theorem parseStepsAux_emptyStep_iff {mn mx : Nat} :
    ∀ {pre : List (List Char)} (rest : List (List Char)) (acc : List Nat),
      [] ∉ pre →
      (parseStepsAux mn mx (pre ++ [] :: rest) acc = .error .emptyStep ↔
        ∀ s ∈ pre, ∃ v, parseIntegral s mn mx = .ok v)
  | [], rest, acc => by
    intro _
    constructor
    · intro _ s hs
      exact absurd hs (List.not_mem_nil s)
    · intro _
      simp [parseStepsAux]
  | t :: pre, rest, acc => by
    intro hnm
    have ht : t ≠ [] := fun h => hnm (List.mem_cons.mpr (Or.inl h.symm))
    have hnm' : ([] : List Char) ∉ pre :=
      fun h => hnm (List.mem_cons_of_mem t h)
    simp only [List.cons_append, parseStepsAux, List.isEmpty_eq_true,
      if_neg ht, List.append_eq]
    cases hp : parseIntegral t mn mx with
    | error e =>
      simp only [hp]
      constructor
      · intro h
        exact absurd h (by simp)
      · intro hall
        obtain ⟨v, hv⟩ := hall t (List.mem_cons_self t pre)
        rw [hp] at hv
        exact absurd hv (by simp)
    | ok v =>
      simp only [hp]
      have hiff : (∀ s ∈ t :: pre, ∃ w, parseIntegral s mn mx = .ok w) ↔
          ∀ s ∈ pre, ∃ w, parseIntegral s mn mx = .ok w := by
        constructor
        · intro hall s hs
          exact hall s (List.mem_cons_of_mem t hs)
        · intro hall s hs
          rcases List.mem_cons.mp hs with rfl | hs
          · exact ⟨v, hp⟩
          · exact hall s hs
      by_cases hm : v ∈ acc
      · simp only [if_pos hm]
        rw [parseStepsAux_emptyStep_iff rest acc hnm']
        exact hiff.symm
      · simp only [if_neg hm]
        rw [parseStepsAux_emptyStep_iff rest (acc ++ [v]) hnm']
        exact hiff.symm

theorem mem_foldl_dedupInsert {v : Nat} :
    ∀ {vals acc : List Nat}, v ∈ vals.foldl dedupInsert acc ↔ v ∈ acc ∨ v ∈ vals
  | [], acc => by simp
  | w :: vs, acc => by
    simp only [List.foldl_cons, mem_foldl_dedupInsert, List.mem_cons]
    unfold dedupInsert
    by_cases hw : w ∈ acc
    · simp only [if_pos hw]
      constructor
      · rintro (h | h)
        · exact Or.inl h
        · exact Or.inr (Or.inr h)
      · rintro (h | h | h)
        · exact Or.inl h
        · exact Or.inl (h ▸ hw)
        · exact Or.inr h
    · simp only [if_neg hw, List.mem_append, List.mem_singleton]
      constructor
      · rintro ((h | h) | h)
        · exact Or.inl h
        · exact Or.inr (Or.inl h)
        · exact Or.inr (Or.inr h)
      · rintro (h | h | h)
        · exact Or.inl (Or.inl h)
        · exact Or.inl (Or.inr h)
        · exact Or.inr h

theorem nodup_foldl_dedupInsert :
    ∀ {vals acc : List Nat}, acc.Nodup → (vals.foldl dedupInsert acc).Nodup
  | [], _ => fun h => h
  | w :: vs, acc => by
    intro hacc
    simp only [List.foldl_cons]
    unfold dedupInsert
    by_cases hw : w ∈ acc
    · simp only [if_pos hw]
      exact nodup_foldl_dedupInsert hacc
    · simp only [if_neg hw]
      refine nodup_foldl_dedupInsert ?_
      simpa [List.nodup_append] using ⟨hacc, hw⟩

theorem mem_specDedup {v : Nat} {vals : List Nat} :
    v ∈ specDedup vals ↔ v ∈ vals := by
  unfold specDedup
  rw [mem_foldl_dedupInsert]
  simp

theorem nodup_specDedup (vals : List Nat) : (specDedup vals).Nodup :=
  nodup_foldl_dedupInsert List.nodup_nil

/-! ### Bound invariants of the field parsers -/

theorem parseRange_ok_bounds {parts : List (List Char)} {mn mx v : Nat}
    {l : List Nat} (h : parseRange parts mn mx = .ok l) (hv : v ∈ l) :
    mn ≤ v ∧ v ≤ mx := by
  unfold parseRange at h
  split at h
  · rename_i t0 t1
    split at h
    · exact absurd h (by simp)
    · rename_i first hfirst
      split at h
      · exact absurd h (by simp)
      · rename_i last hlast
        split at h
        · exact absurd h (by simp)
        · simp only [Except.ok.injEq] at h
          subst h
          have h0 := parseIntegral_ok_bounds hfirst
          have h1 := parseIntegral_ok_bounds hlast
          have := mem_rangeInclusive.mp hv
          omega
  · exact absurd h (by simp)

theorem parseStepsAux_ok_bounds {mn mx : Nat} :
    ∀ {steps : List (List Char)} {acc l : List Nat} {v : Nat},
      (∀ w ∈ acc, mn ≤ w ∧ w ≤ mx) →
      parseStepsAux mn mx steps acc = .ok l → v ∈ l → mn ≤ v ∧ v ≤ mx
  | [], acc, l, v => by
    intro hacc h hv
    simp only [parseStepsAux, Except.ok.injEq] at h
    exact hacc v (h ▸ hv)
  | s :: rest, acc, l, v => by
    intro hacc h hv
    simp only [parseStepsAux] at h
    split at h
    · exact absurd h (by simp)
    · split at h
      · exact absurd h (by simp)
      · rename_i step hstep
        split at h
        · exact parseStepsAux_ok_bounds hacc h hv
        · refine parseStepsAux_ok_bounds ?_ h hv
          intro w hw
          rcases List.mem_append.mp hw with hw | hw
          · exact hacc w hw
          · rw [List.mem_singleton.mp hw]
            exact parseIntegral_ok_bounds hstep

theorem parseIntervals_ok_bounds {parts : List (List Char)} {mn mx v : Nat}
    {l : List Nat} (h : parseIntervals parts mn mx = .ok l) (hv : v ∈ l) :
    mn ≤ v ∧ v < mx := by
  unfold parseIntervals at h
  split at h
  · rename_i t0 t1
    split at h
    · exact absurd h (by simp)
    · rename_i start hstart
      split at h
      · exact absurd h (by simp)
      · rename_i every hevery
        split at h
        · exact absurd h (by simp)
        · rename_i hne
          split at h
          · exact absurd h (by simp)
          · simp only [Except.ok.injEq] at h
            subst h
            obtain ⟨k, hk, hkv⟩ :=
              (mem_intervalLoop (Nat.pos_of_ne_zero hne)).mp hv
            omega
  · exact absurd h (by simp)

theorem parseTime_ok_bounds {arg : List Char} {mn mx v : Nat} {l : List Nat}
    (h : parseTime arg mn mx = .ok l) (hv : v ∈ l) : mn ≤ v ∧ v ≤ mx := by
  unfold parseTime at h
  by_cases h0 : arg = []
  · rw [if_pos h0] at h
    exact absurd h (by simp)
  · rw [if_neg h0] at h
    by_cases h1 : arg = ['*']
    · rw [if_pos h1] at h
      simp only [Except.ok.injEq] at h
      subst h
      have := mem_rangeInclusive.mp hv
      omega
    · rw [if_neg h1] at h
      by_cases h2 : (splitChar '-' arg).length > 1
      · rw [if_pos h2] at h
        exact parseRange_ok_bounds h hv
      · rw [if_neg h2] at h
        by_cases h3 : (splitChar ',' arg).length > 1
        · rw [if_pos h3] at h
          exact parseStepsAux_ok_bounds (by simp) h hv
        · rw [if_neg h3] at h
          by_cases h4 : (splitChar '/' arg).length > 1
          · rw [if_pos h4] at h
            have := parseIntervals_ok_bounds h hv
            omega
          · rw [if_neg h4] at h
            split at h
            · exact absurd h (by simp)
            · rename_i exact hexact
              simp only [Except.ok.injEq] at h
              subst h
              rw [List.mem_singleton.mp hv]
              exact parseIntegral_ok_bounds hexact

/-! ### Dispatch equations of `parseTime` -/

theorem parseTime_wildcard (mn mx : Nat) :
    parseTime ['*'] mn mx = .ok (rangeInclusive mn mx) := rfl

theorem parseTime_range_eq {arg : List Char} (mn mx : Nat) (h0 : arg ≠ [])
    (h1 : arg ≠ ['*']) (h2 : '-' ∈ arg) :
    parseTime arg mn mx = parseRange (splitChar '-' arg) mn mx := by
  unfold parseTime
  rw [if_neg h0, if_neg h1, if_pos (one_lt_splitChar_length.mpr h2)]

theorem parseTime_steps_eq {arg : List Char} (mn mx : Nat) (h0 : arg ≠ [])
    (h1 : arg ≠ ['*']) (h2 : '-' ∉ arg) (h3 : ',' ∈ arg) :
    parseTime arg mn mx = parseSteps (splitChar ',' arg) mn mx := by
  unfold parseTime
  rw [if_neg h0, if_neg h1,
    if_neg (fun hl => h2 (one_lt_splitChar_length.mp hl)),
    if_pos (one_lt_splitChar_length.mpr h3)]

theorem parseTime_intervals_eq {arg : List Char} (mn mx : Nat) (h0 : arg ≠ [])
    (h1 : arg ≠ ['*']) (h2 : '-' ∉ arg) (h3 : ',' ∉ arg) (h4 : '/' ∈ arg) :
    parseTime arg mn mx = parseIntervals (splitChar '/' arg) mn mx := by
  unfold parseTime
  rw [if_neg h0, if_neg h1,
    if_neg (fun hl => h2 (one_lt_splitChar_length.mp hl)),
    if_neg (fun hl => h3 (one_lt_splitChar_length.mp hl)),
    if_pos (one_lt_splitChar_length.mpr h4)]

theorem parseTime_exact_eq {arg : List Char} (mn mx : Nat) (h0 : arg ≠ [])
    (h1 : arg ≠ ['*']) (h2 : '-' ∉ arg) (h3 : ',' ∉ arg) (h4 : '/' ∉ arg) :
    parseTime arg mn mx =
      match parseIntegral arg mn mx with
      | .error e => .error (.exactWrap e)
      | .ok exact => .ok [exact] := by
  unfold parseTime
  rw [if_neg h0, if_neg h1,
    if_neg (fun hl => h2 (one_lt_splitChar_length.mp hl)),
    if_neg (fun hl => h3 (one_lt_splitChar_length.mp hl)),
    if_neg (fun hl => h4 (one_lt_splitChar_length.mp hl))]

/-! ### Inversion of `ParseExpression` -/

theorem ParseExpression_ok_inv {line : List Char} {expr : Expression}
    (h : ParseExpression line = .ok expr) :
    ∃ a0 a1 a2 a3 a4 a5,
      (splitNChar ' ' numExressionArgs line).get? 0 = some a0 ∧
      (splitNChar ' ' numExressionArgs line).get? 1 = some a1 ∧
      (splitNChar ' ' numExressionArgs line).get? 2 = some a2 ∧
      (splitNChar ' ' numExressionArgs line).get? 3 = some a3 ∧
      (splitNChar ' ' numExressionArgs line).get? 4 = some a4 ∧
      (splitNChar ' ' numExressionArgs line).get? 5 = some a5 ∧
      parseTime a0 minutesMin minutesMax = .ok expr.Minutes ∧
      parseTime a1 hoursMin hoursMax = .ok expr.Hours ∧
      parseTime a2 daysInMonthMin daysInMonthMax = .ok expr.MonthDays ∧
      parseTime a3 monthsMin monthsMax = .ok expr.Months ∧
      parseTime a4 weekdaysMin weekdaysMax = .ok expr.WeekDays ∧
      expr.Command = a5 ∧ a5 ≠ [] := by
  simp only [ParseExpression] at h
  split at h
  · exact absurd h (by simp)
  rename_i a0 h0
  split at h
  · exact absurd h (by simp)
  rename_i minutes hm
  split at h
  · exact absurd h (by simp)
  rename_i a1 h1
  split at h
  · exact absurd h (by simp)
  rename_i hours hh
  split at h
  · exact absurd h (by simp)
  rename_i a2 h2
  split at h
  · exact absurd h (by simp)
  rename_i monthDays hd
  split at h
  · exact absurd h (by simp)
  rename_i a3 h3
  split at h
  · exact absurd h (by simp)
  rename_i months hmo
  split at h
  · exact absurd h (by simp)
  rename_i a4 h4
  split at h
  · exact absurd h (by simp)
  rename_i weekDays hw
  split at h
  · exact absurd h (by simp)
  rename_i a5 h5
  split at h
  · exact absurd h (by simp)
  rename_i h5ne
  simp only [ExprOutcome.ok.injEq] at h
  subst h
  exact ⟨a0, a1, a2, a3, a4, a5, h0, h1, h2, h3, h4, h5,
    hm, hh, hd, hmo, hw, rfl, h5ne⟩

/-! ### The claims -/

/-- C1: the claim states that every line splitting into fewer than 6 parts
makes `ParseExpression` fail with a MissingField-class error and never
perform an out-of-bounds access.  The code contradicts this (and the spec's
own §9 guidance asking for an explicit guard): on the five-part line
`"* * * * *"` all five fields parse successfully, and the unguarded
positional access `args[5]` is an out-of-range slice index — a Go runtime
panic, modelled by `ExprOutcome.panic`. -/
theorem c1_short_input_panics :
    (splitNChar ' ' numExressionArgs ("* * * * *".data)).length < 6 ∧
    ParseExpression ("* * * * *".data) = .panic := by
  exact ⟨by decide, by decide⟩

/-- C10: a successful parse does not guarantee a non-empty expansion: the
interval token `"59/1"` over the minutes bound [0,59] passes every check
(59 is in bound, 1 > 0, 60 % 1 = 0) yet the loop
`for i := 59; i < 59; i += 1` emits nothing, so the Field Dispatcher
succeeds with the empty sequence. -/
theorem c10_ok_empty_expansion :
    parseTime ("59/1".data) 0 59 = .ok ([] : List Nat) := by decide

/-- C4: every integer of a successfully parsed `Expression` lies within its
field's bound — Minutes in [0,59], Hours in [0,23], MonthDays in [1,31],
Months in [1,12], WeekDays in [0,6] — and the command is non-empty. -/
theorem c4_expression_invariant (line : List Char) (expr : Expression)
    (h : ParseExpression line = .ok expr) :
    (∀ v ∈ expr.Minutes, 0 ≤ v ∧ v ≤ 59) ∧
    (∀ v ∈ expr.Hours, 0 ≤ v ∧ v ≤ 23) ∧
    (∀ v ∈ expr.MonthDays, 1 ≤ v ∧ v ≤ 31) ∧
    (∀ v ∈ expr.Months, 1 ≤ v ∧ v ≤ 12) ∧
    (∀ v ∈ expr.WeekDays, 0 ≤ v ∧ v ≤ 6) ∧
    expr.Command ≠ [] := by
  obtain ⟨a0, a1, a2, a3, a4, a5, _, _, _, _, _, _, hm, hh, hd, hmo, hw,
    hcmd, hne⟩ := ParseExpression_ok_inv h
  refine ⟨?_, ?_, ?_, ?_, ?_, ?_⟩
  · exact fun v hv => ⟨Nat.zero_le v, (parseTime_ok_bounds hm hv).2⟩
  · exact fun v hv => ⟨Nat.zero_le v, (parseTime_ok_bounds hh hv).2⟩
  · exact fun v hv => parseTime_ok_bounds hd hv
  · exact fun v hv => parseTime_ok_bounds hmo hv
  · exact fun v hv => ⟨Nat.zero_le v, (parseTime_ok_bounds hw hv).2⟩
  · rw [hcmd]; exact hne

/-- Witness for C4 at the concrete line `"1 2 3 4 5 x"`. -/
theorem c4_witness :
    (∀ v ∈ (Expression.mk [1] [2] [3] [4] [5] ['x']).Minutes, 0 ≤ v ∧ v ≤ 59) ∧
    (∀ v ∈ (Expression.mk [1] [2] [3] [4] [5] ['x']).Hours, 0 ≤ v ∧ v ≤ 23) ∧
    (∀ v ∈ (Expression.mk [1] [2] [3] [4] [5] ['x']).MonthDays, 1 ≤ v ∧ v ≤ 31) ∧
    (∀ v ∈ (Expression.mk [1] [2] [3] [4] [5] ['x']).Months, 1 ≤ v ∧ v ≤ 12) ∧
    (∀ v ∈ (Expression.mk [1] [2] [3] [4] [5] ['x']).WeekDays, 0 ≤ v ∧ v ≤ 6) ∧
    (Expression.mk [1] [2] [3] [4] [5] ['x']).Command ≠ [] :=
  c4_expression_invariant ("1 2 3 4 5 x".data)
    (Expression.mk [1] [2] [3] [4] [5] ['x']) (by decide)

/-- C5: over any bound, two tokens parsing to a < b expand to the inclusive
ascending sequence a..b (characterised by membership plus strict sortedness);
a ≥ b is rejected with the inverted-range error, so a single-point range is
not expressible; any arity other than two tokens is rejected as a malformed
range. -/
theorem c5_range_expander (mn mx : Nat) (_hb : ValidBound mn mx) :
    (∀ ta tb a b, parseIntegral ta mn mx = .ok a →
      parseIntegral tb mn mx = .ok b → a < b →
      ∃ l, parseRange [ta, tb] mn mx = .ok l ∧
        (∀ v, v ∈ l ↔ a ≤ v ∧ v ≤ b) ∧ l.Pairwise (· < ·)) ∧
    (∀ ta tb a b, parseIntegral ta mn mx = .ok a →
      parseIntegral tb mn mx = .ok b → a ≥ b →
      parseRange [ta, tb] mn mx = .error (.invertedRange a b)) ∧
    (∀ parts : List (List Char), parts.length ≠ 2 →
      parseRange parts mn mx = .error (.malformedRange parts)) := by
  refine ⟨?_, ?_, ?_⟩
  · intro ta tb a b ha hbk hab
    simp only [parseRange, ha, hbk, if_neg (not_le.mpr hab)]
    refine ⟨rangeInclusive a b, rfl, ?_, pairwise_rangeInclusive a b⟩
    intro v
    rw [mem_rangeInclusive]
    omega
  · intro ta tb a b ha hbk hab
    simp only [parseRange, ha, hbk, if_pos hab]
  · intro parts hlen
    match parts with
    | [] => rfl
    | [x] => rfl
    | [x, y] => exact absurd rfl hlen
    | x :: y :: z :: rest => rfl

/-- Witness for C5 at bound [0,59] with tokens "1" and "10". -/
theorem c5_witness :
    ∃ l, parseRange [['1'], ['1', '0']] 0 59 = .ok l ∧
      (∀ v, v ∈ l ↔ 1 ≤ v ∧ v ≤ 10) ∧ l.Pairwise (· < ·) :=
  (c5_range_expander 0 59 (by decide)).1 ['1'] ['1', '0'] 1 10
    (by decide) (by decide) (by decide)

/-- C2: for every bound and accepted start/every interval token, the
expansion is exactly the arithmetic progression start+min, start+min+every,
start+min+2·every, … of all terms strictly below max (characterised by
membership plus strict sortedness): a term equal to max is never produced,
and in particular `*/1` over [0,3] yields [0,1,2], not [0,1,2,3]. -/
theorem c2_interval_progression :
    (∀ mn mx iv0 iv1 start every, ValidBound mn mx →
      (iv0 = ['*'] ∧ start = 0 ∨ parseIntegral iv0 mn mx = .ok start) →
      parseIntegral iv1 mn mx = .ok every → 0 < every →
      (mx + 1) % every = 0 →
      ∃ l, parseIntervals [iv0, iv1] mn mx = .ok l ∧
        (∀ v, v ∈ l ↔ ∃ k, v = start + mn + k * every ∧ v < mx) ∧
        l.Pairwise (· < ·)) ∧
    parseIntervals [['*'], ['1']] 0 3 = .ok [0, 1, 2] := by
  constructor
  · intro mn mx iv0 iv1 start every _ hstart hevery hpos hdiv
    have hps : parseStart iv0 mn mx = .ok start := by
      rcases hstart with ⟨rfl, rfl⟩ | hok
      · rfl
      · have hw : iv0 ≠ ['*'] := by
          rintro rfl
          have hn : parseUint8 ['*'] = none := by decide
          simp [parseIntegral, hn] at hok
        simp only [parseStart, if_neg hw, hok]
    simp only [parseIntervals, hps, hevery,
      if_neg (Nat.pos_iff_ne_zero.mp hpos), if_neg (not_ne_iff.mpr hdiv)]
    refine ⟨intervalLoop mx every (start + mn), rfl, ?_,
      pairwise_intervalLoop mx every (start + mn) hpos⟩
    intro v
    exact mem_intervalLoop hpos
  · decide

/-- Witness for C2: the `*/1` token over [0,3]. -/
theorem c2_witness :
    ∃ l, parseIntervals [['*'], ['1']] 0 3 = .ok l ∧
      (∀ v, v ∈ l ↔ ∃ k, v = 0 + 0 + k * 1 ∧ v < 3) ∧
      l.Pairwise (· < ·) :=
  c2_interval_progression.1 0 3 ['*'] ['1'] 0 1 (by decide)
    (Or.inl ⟨rfl, rfl⟩) (by decide) (by decide) (by decide)

/-- C3 counterexample: the claim asserts that whenever n > 0 and
(max+1) % n == 0 the Interval Expander succeeds, but `every` is first
bound-checked against the field's range: for `*/60` over the minutes bound
[0,59], 60 > 0 and 60 % 60 = 0, yet the token is rejected with the
out-of-bound error from the Integral Field Parser. -/
theorem c3_counterexample :
    (0 < 60 ∧ (59 + 1) % 60 = 0) ∧
    parseIntervals [['*'], ['6', '0']] 0 59 =
      .error (.intervalEvery (.outOfBound 0 59)) := by
  exact ⟨by decide, by decide⟩

/-- C3 amended: restricted to steps n that the Integral Field Parser
accepts within (min,max), `*/n` succeeds with the progression
min, min+n, min+2n, … strictly below max exactly when n > 0 and
(max+1) % n = 0; an accepted n not dividing max+1 is rejected as an
indivisible interval; an accepted n = 0 is rejected as a zero interval; a
step token the Integral Field Parser rejects (out of bound or malformed) is
rejected with that parser's error instead. -/
theorem c3_amended (mn mx : Nat) (iv1 : List Char) (_hb : ValidBound mn mx) :
    (∀ n, parseIntegral iv1 mn mx = .ok n → 0 < n → (mx + 1) % n = 0 →
      ∃ l, parseIntervals [['*'], iv1] mn mx = .ok l ∧
        (∀ v, v ∈ l ↔ ∃ k, v = mn + k * n ∧ v < mx) ∧
        l.Pairwise (· < ·)) ∧
    (∀ n, parseIntegral iv1 mn mx = .ok n → 0 < n → (mx + 1) % n ≠ 0 →
      parseIntervals [['*'], iv1] mn mx =
        .error (.indivisibleInterval n (mx + 1))) ∧
    (parseIntegral iv1 mn mx = .ok 0 →
      parseIntervals [['*'], iv1] mn mx = .error .zeroInterval) ∧
    (∀ e, parseIntegral iv1 mn mx = .error e →
      parseIntervals [['*'], iv1] mn mx = .error (.intervalEvery e)) := by
  have hps : parseStart ['*'] mn mx = .ok 0 := rfl
  refine ⟨?_, ?_, ?_, ?_⟩
  · intro n hn hpos hdiv
    simp only [parseIntervals, hps, hn,
      if_neg (Nat.pos_iff_ne_zero.mp hpos), if_neg (not_ne_iff.mpr hdiv)]
    refine ⟨intervalLoop mx n (0 + mn), rfl, ?_,
      pairwise_intervalLoop mx n (0 + mn) hpos⟩
    intro v
    rw [mem_intervalLoop hpos]
    simp only [Nat.zero_add]
  · intro n hn hpos hndiv
    simp only [parseIntervals, hps, hn,
      if_neg (Nat.pos_iff_ne_zero.mp hpos), if_pos hndiv]
  · intro hn
    simp only [parseIntervals, hps, hn, if_true]
  · intro e he
    simp only [parseIntervals, hps, he]

/-- Witness for the amended C3: `*/15` over the minutes bound [0,59]. -/
theorem c3_witness :
    ∃ l, parseIntervals [['*'], ['1', '5']] 0 59 = .ok l ∧
      (∀ v, v ∈ l ↔ ∃ k, v = 0 + k * 15 ∧ v < 59) ∧
      l.Pairwise (· < ·) :=
  (c3_amended 0 59 ['1', '5'] (by decide)).1 15 (by decide)
    (by decide) (by decide)

/-- C6 counterexample: the claim asserts that any list containing the empty
token fails with the EmptyStep error, but tokens are examined left to
right: for ["77", ""] over [0,59] the out-of-bound token "77" is reported
first, so the parser fails with a wrapped out-of-bound error, not
EmptyStep. -/
theorem c6_counterexample :
    ([] : List Char) ∈ [['7', '7'], ([] : List Char)] ∧
    parseSteps [['7', '7'], []] 0 59 =
      .error (.stepWrap ['7', '7'] (.outOfBound 0 59)) ∧
    parseSteps [['7', '7'], []] 0 59 ≠ .error .emptyStep := by
  exact ⟨by decide, by decide, by decide⟩

/-- C6 amended: a list containing the empty token always fails, and fails
with EmptyStep precisely when every token preceding the first empty one
parses within bounds (an earlier offending token is reported with its own
error instead — the wrapped error of the first failing token); when every
token parses within bounds the output contains each distinct value exactly
once, at the position of its first appearance, with the order of first
appearances preserved (`specDedup`). -/
theorem c6_amended (mn mx : Nat) (_hb : ValidBound mn mx) :
    (∀ steps : List (List Char), [] ∈ steps →
      ∃ e, parseSteps steps mn mx = .error e) ∧
    (∀ pre rest : List (List Char),
      (∀ s ∈ pre, ∃ v, parseIntegral s mn mx = .ok v) →
      parseSteps (pre ++ [] :: rest) mn mx = .error .emptyStep) ∧
    (∀ (pre : List (List Char)) (s : List Char) (rest : List (List Char))
        (e : FieldErr),
      (∀ t ∈ pre, ∃ v, parseIntegral t mn mx = .ok v) →
      s ≠ [] → parseIntegral s mn mx = .error e →
      parseSteps (pre ++ s :: rest) mn mx = .error (.stepWrap s e)) ∧
    (∀ pre rest : List (List Char), [] ∉ pre →
      (parseSteps (pre ++ [] :: rest) mn mx = .error .emptyStep ↔
        ∀ s ∈ pre, ∃ v, parseIntegral s mn mx = .ok v)) ∧
    (∀ (steps : List (List Char)) (vals : List Nat),
      List.Forall₂ (fun s v => parseIntegral s mn mx = .ok v) steps vals →
      parseSteps steps mn mx = .ok (specDedup vals) ∧
      (∀ v, v ∈ specDedup vals ↔ v ∈ vals) ∧ (specDedup vals).Nodup) := by
  refine ⟨?_, ?_, ?_, ?_, ?_⟩
  · intro steps hmem
    exact parseStepsAux_error_of_mem_nil [] hmem
  · intro pre rest hpre
    exact parseStepsAux_emptyStep rest [] hpre
  · intro pre s rest e hpre hs he
    exact parseStepsAux_stepWrap s rest [] e hpre hs he
  · intro pre rest hnm
    exact parseStepsAux_emptyStep_iff rest [] hnm
  · intro steps vals hall
    exact ⟨parseStepsAux_ok_forall₂ [] hall,
      fun v => mem_specDedup, nodup_specDedup vals⟩

/-- Witness for the amended C6: the duplicate list "1,1,2" over [0,59]
dedups to first appearances, and in "77,,3" the out-of-bound "77" preceding
the empty token is reported with its own wrapped error. -/
theorem c6_witness :
    (parseSteps [['1'], ['1'], ['2']] 0 59 = .ok (specDedup [1, 1, 2]) ∧
      (∀ v, v ∈ specDedup [1, 1, 2] ↔ v ∈ [1, 1, 2]) ∧
      (specDedup [1, 1, 2]).Nodup) ∧
    parseSteps [['7', '7'], [], ['3']] 0 59 =
      .error (.stepWrap ['7', '7'] (.outOfBound 0 59)) :=
  ⟨(c6_amended 0 59 (by decide)).2.2.2.2 [['1'], ['1'], ['2']] [1, 1, 2]
      (.cons (by decide) (.cons (by decide) (.cons (by decide) .nil))),
    (c6_amended 0 59 (by decide)).2.2.1 [] ['7', '7'] [[], ['3']]
      (.outOfBound 0 59) (by intro t ht; exact absurd ht (List.not_mem_nil t))
      (by decide) (by decide)⟩

/-- C7: the Field Dispatcher selects its strategy by first match in a fixed
order — exact `*` expands to the full bound; else a token containing `-`
goes to the Range Expander on its `-`-split; else one containing `,` to the
Step List Parser; else one containing `/` to the Interval Expander; else
the whole token is parsed as an exact integer yielding a single-element
sequence.  Consequently `1-5/2` is treated as a range whose second endpoint
"5/2" fails integer parsing — separators are never composed. -/
theorem c7_dispatcher :
    (∀ mn mx, ValidBound mn mx → ∀ arg : List Char,
      (arg = ['*'] → ∃ l, parseTime arg mn mx = .ok l ∧
        (∀ v, v ∈ l ↔ mn ≤ v ∧ v ≤ mx) ∧ l.Pairwise (· < ·)) ∧
      (arg ≠ [] → arg ≠ ['*'] → '-' ∈ arg →
        parseTime arg mn mx = parseRange (splitChar '-' arg) mn mx) ∧
      (arg ≠ [] → arg ≠ ['*'] → '-' ∉ arg → ',' ∈ arg →
        parseTime arg mn mx = parseSteps (splitChar ',' arg) mn mx) ∧
      (arg ≠ [] → arg ≠ ['*'] → '-' ∉ arg → ',' ∉ arg → '/' ∈ arg →
        parseTime arg mn mx = parseIntervals (splitChar '/' arg) mn mx) ∧
      (arg ≠ [] → arg ≠ ['*'] → '-' ∉ arg → ',' ∉ arg → '/' ∉ arg →
        (∀ v, parseIntegral arg mn mx = .ok v →
          parseTime arg mn mx = .ok [v]) ∧
        (∀ e, parseIntegral arg mn mx = .error e →
          parseTime arg mn mx = .error (.exactWrap e)))) ∧
    parseTime ("1-5/2".data) 0 59 =
      .error (.rangeEnd ['5', '/', '2'] .malformedInteger) := by
  constructor
  · intro mn mx _hb arg
    refine ⟨?_, ?_, ?_, ?_, ?_⟩
    · rintro rfl
      refine ⟨rangeInclusive mn mx, parseTime_wildcard mn mx, ?_,
        pairwise_rangeInclusive mn mx⟩
      intro v
      rw [mem_rangeInclusive]
      omega
    · exact parseTime_range_eq mn mx
    · exact parseTime_steps_eq mn mx
    · exact parseTime_intervals_eq mn mx
    · intro h0 h1 h2 h3 h4
      constructor
      · intro v hv
        rw [parseTime_exact_eq mn mx h0 h1 h2 h3 h4, hv]
      · intro e he
        rw [parseTime_exact_eq mn mx h0 h1 h2 h3 h4, he]
  · decide

/-- Witness for C7: the range token "1-10" over [0,59] is dispatched to the
Range Expander. -/
theorem c7_witness :
    parseTime ("1-10".data) 0 59 =
      parseRange (splitChar '-' ("1-10".data)) 0 59 :=
  (c7_dispatcher.1 0 59 (by decide) ("1-10".data)).2.1
    (by decide) (by decide) (by decide)

/-- C8: whenever a field or the command fails to parse (previous fields
having parsed), `ParseExpression` surfaces that failure as an error naming
the failing field; and a failing parse never also returns an expression,
so the caller observes no partially-assembled structure on failure. -/
theorem c8_failure_surfacing (line : List Char) :
    (∀ a0 e, (splitNChar ' ' numExressionArgs line).get? 0 = some a0 →
      parseTime a0 minutesMin minutesMax = .error e →
      ParseExpression line = .fail (.invalidMinutes e)) ∧
    (∀ a0 l0 a1 e,
      (splitNChar ' ' numExressionArgs line).get? 0 = some a0 →
      parseTime a0 minutesMin minutesMax = .ok l0 →
      (splitNChar ' ' numExressionArgs line).get? 1 = some a1 →
      parseTime a1 hoursMin hoursMax = .error e →
      ParseExpression line = .fail (.invalidHours e)) ∧
    (∀ a0 l0 a1 l1 a2 e,
      (splitNChar ' ' numExressionArgs line).get? 0 = some a0 →
      parseTime a0 minutesMin minutesMax = .ok l0 →
      (splitNChar ' ' numExressionArgs line).get? 1 = some a1 →
      parseTime a1 hoursMin hoursMax = .ok l1 →
      (splitNChar ' ' numExressionArgs line).get? 2 = some a2 →
      parseTime a2 daysInMonthMin daysInMonthMax = .error e →
      ParseExpression line = .fail (.invalidMonthDays e)) ∧
    (∀ a0 l0 a1 l1 a2 l2 a3 e,
      (splitNChar ' ' numExressionArgs line).get? 0 = some a0 →
      parseTime a0 minutesMin minutesMax = .ok l0 →
      (splitNChar ' ' numExressionArgs line).get? 1 = some a1 →
      parseTime a1 hoursMin hoursMax = .ok l1 →
      (splitNChar ' ' numExressionArgs line).get? 2 = some a2 →
      parseTime a2 daysInMonthMin daysInMonthMax = .ok l2 →
      (splitNChar ' ' numExressionArgs line).get? 3 = some a3 →
      parseTime a3 monthsMin monthsMax = .error e →
      ParseExpression line = .fail (.invalidMonth e)) ∧
    (∀ a0 l0 a1 l1 a2 l2 a3 l3 a4 e,
      (splitNChar ' ' numExressionArgs line).get? 0 = some a0 →
      parseTime a0 minutesMin minutesMax = .ok l0 →
      (splitNChar ' ' numExressionArgs line).get? 1 = some a1 →
      parseTime a1 hoursMin hoursMax = .ok l1 →
      (splitNChar ' ' numExressionArgs line).get? 2 = some a2 →
      parseTime a2 daysInMonthMin daysInMonthMax = .ok l2 →
      (splitNChar ' ' numExressionArgs line).get? 3 = some a3 →
      parseTime a3 monthsMin monthsMax = .ok l3 →
      (splitNChar ' ' numExressionArgs line).get? 4 = some a4 →
      parseTime a4 weekdaysMin weekdaysMax = .error e →
      ParseExpression line = .fail (.invalidWeekDays e)) ∧
    (∀ a0 l0 a1 l1 a2 l2 a3 l3 a4 l4 a5,
      (splitNChar ' ' numExressionArgs line).get? 0 = some a0 →
      parseTime a0 minutesMin minutesMax = .ok l0 →
      (splitNChar ' ' numExressionArgs line).get? 1 = some a1 →
      parseTime a1 hoursMin hoursMax = .ok l1 →
      (splitNChar ' ' numExressionArgs line).get? 2 = some a2 →
      parseTime a2 daysInMonthMin daysInMonthMax = .ok l2 →
      (splitNChar ' ' numExressionArgs line).get? 3 = some a3 →
      parseTime a3 monthsMin monthsMax = .ok l3 →
      (splitNChar ' ' numExressionArgs line).get? 4 = some a4 →
      parseTime a4 weekdaysMin weekdaysMax = .ok l4 →
      (splitNChar ' ' numExressionArgs line).get? 5 = some a5 →
      a5 = [] →
      ParseExpression line = .fail .emptyCommand) ∧
    (∀ e expr, ParseExpression line = .fail e →
      ParseExpression line ≠ .ok expr) := by
  refine ⟨?_, ?_, ?_, ?_, ?_, ?_, ?_⟩
  · intro a0 e h0 hp0
    simp only [ParseExpression, h0, hp0]
  · intro a0 l0 a1 e h0 hp0 h1 hp1
    simp only [ParseExpression, h0, hp0, h1, hp1]
  · intro a0 l0 a1 l1 a2 e h0 hp0 h1 hp1 h2 hp2
    simp only [ParseExpression, h0, hp0, h1, hp1, h2, hp2]
  · intro a0 l0 a1 l1 a2 l2 a3 e h0 hp0 h1 hp1 h2 hp2 h3 hp3
    simp only [ParseExpression, h0, hp0, h1, hp1, h2, hp2, h3, hp3]
  · intro a0 l0 a1 l1 a2 l2 a3 l3 a4 e h0 hp0 h1 hp1 h2 hp2 h3 hp3 h4 hp4
    simp only [ParseExpression, h0, hp0, h1, hp1, h2, hp2, h3, hp3, h4, hp4]
  · intro a0 l0 a1 l1 a2 l2 a3 l3 a4 l4 a5 h0 hp0 h1 hp1 h2 hp2 h3 hp3 h4
      hp4 h5 ha5
    subst ha5
    simp only [ParseExpression, h0, hp0, h1, hp1, h2, hp2, h3, hp3, h4, hp4,
      h5, if_true]
  · intro e expr hfail hok
    rw [hfail] at hok
    exact ExprOutcome.noConfusion hok

/-- Witness for C8: the line `"99 * * * * x"` fails on its minutes field
(99 is out of the minutes bound) and the failure is surfaced naming the
minutes field. -/
theorem c8_witness :
    ParseExpression ("99 * * * * x".data) =
      .fail (.invalidMinutes (.exactWrap (.outOfBound 0 59))) :=
  (c8_failure_surfacing ("99 * * * * x".data)).1 ['9', '9']
    (.exactWrap (.outOfBound 0 59)) (by decide) (by decide)

/-- C9: the line is split into at most 6 parts on the first 5 spaces, so
the 6th part — the command — may itself contain spaces and is never split
further; when the five field parts parse, the parse fails with the
empty-command error exactly when the 6th part is empty, and on success the
command equals the 6th part verbatim. -/
theorem c9_command_handling :
    (∀ line : List Char, (splitNChar ' ' numExressionArgs line).length ≤ 6) ∧
    (∀ t1 t2 t3 t4 t5 r : List Char,
      ' ' ∉ t1 → ' ' ∉ t2 → ' ' ∉ t3 → ' ' ∉ t4 → ' ' ∉ t5 →
      splitNChar ' ' numExressionArgs
          (t1 ++ ' ' :: (t2 ++ ' ' :: (t3 ++ ' ' ::
            (t4 ++ ' ' :: (t5 ++ ' ' :: r))))) = [t1, t2, t3, t4, t5, r] ∧
      ∀ l1 l2 l3 l4 l5,
        parseTime t1 minutesMin minutesMax = .ok l1 →
        parseTime t2 hoursMin hoursMax = .ok l2 →
        parseTime t3 daysInMonthMin daysInMonthMax = .ok l3 →
        parseTime t4 monthsMin monthsMax = .ok l4 →
        parseTime t5 weekdaysMin weekdaysMax = .ok l5 →
        (r = [] →
          ParseExpression (t1 ++ ' ' :: (t2 ++ ' ' :: (t3 ++ ' ' ::
            (t4 ++ ' ' :: (t5 ++ ' ' :: r))))) = .fail .emptyCommand) ∧
        (r ≠ [] →
          ParseExpression (t1 ++ ' ' :: (t2 ++ ' ' :: (t3 ++ ' ' ::
            (t4 ++ ' ' :: (t5 ++ ' ' :: r))))) =
            .ok ⟨l1, l2, l3, l4, l5, r⟩)) := by
  constructor
  · intro line
    have h := splitNChar_length_le ' ' 6 line
    simpa [numExressionArgs] using h
  · intro t1 t2 t3 t4 t5 r h1 h2 h3 h4 h5
    have e1 : splitNChar ' ' 6 (t1 ++ ' ' :: (t2 ++ ' ' :: (t3 ++ ' ' ::
        (t4 ++ ' ' :: (t5 ++ ' ' :: r))))) =
        t1 :: splitNChar ' ' 5 (t2 ++ ' ' :: (t3 ++ ' ' ::
          (t4 ++ ' ' :: (t5 ++ ' ' :: r)))) := by
      show splitNChar ' ' (5 + 1) _ = _
      exact splitNChar_cons (by norm_num) h1 _
    have e2 : splitNChar ' ' 5 (t2 ++ ' ' :: (t3 ++ ' ' ::
        (t4 ++ ' ' :: (t5 ++ ' ' :: r)))) =
        t2 :: splitNChar ' ' 4 (t3 ++ ' ' :: (t4 ++ ' ' :: (t5 ++ ' ' :: r))) := by
      show splitNChar ' ' (4 + 1) _ = _
      exact splitNChar_cons (by norm_num) h2 _
    have e3 : splitNChar ' ' 4 (t3 ++ ' ' :: (t4 ++ ' ' :: (t5 ++ ' ' :: r))) =
        t3 :: splitNChar ' ' 3 (t4 ++ ' ' :: (t5 ++ ' ' :: r)) := by
      show splitNChar ' ' (3 + 1) _ = _
      exact splitNChar_cons (by norm_num) h3 _
    have e4 : splitNChar ' ' 3 (t4 ++ ' ' :: (t5 ++ ' ' :: r)) =
        t4 :: splitNChar ' ' 2 (t5 ++ ' ' :: r) := by
      show splitNChar ' ' (2 + 1) _ = _
      exact splitNChar_cons (by norm_num) h4 _
    have e5 : splitNChar ' ' 2 (t5 ++ ' ' :: r) =
        t5 :: splitNChar ' ' 1 r := by
      show splitNChar ' ' (1 + 1) _ = _
      exact splitNChar_cons (by norm_num) h5 _
    have hsplit : splitNChar ' ' 6 (t1 ++ ' ' :: (t2 ++ ' ' :: (t3 ++ ' ' ::
        (t4 ++ ' ' :: (t5 ++ ' ' :: r))))) = [t1, t2, t3, t4, t5, r] := by
      rw [e1, e2, e3, e4, e5, splitNChar_one]
    refine ⟨hsplit, ?_⟩
    intro l1 l2 l3 l4 l5 hp1 hp2 hp3 hp4 hp5
    have g0 : ([t1, t2, t3, t4, t5, r]).get? 0 = some t1 := rfl
    have g1 : ([t1, t2, t3, t4, t5, r]).get? 1 = some t2 := rfl
    have g2 : ([t1, t2, t3, t4, t5, r]).get? 2 = some t3 := rfl
    have g3 : ([t1, t2, t3, t4, t5, r]).get? 3 = some t4 := rfl
    have g4 : ([t1, t2, t3, t4, t5, r]).get? 4 = some t5 := rfl
    have g5 : ([t1, t2, t3, t4, t5, r]).get? 5 = some r := rfl
    constructor
    · intro hr
      subst hr
      simp only [ParseExpression, numExressionArgs, hsplit, g0, g1, g2, g3,
        g4, g5, hp1, hp2, hp3, hp4, hp5, if_true]
    · intro hr
      simp only [ParseExpression, numExressionArgs, hsplit, g0, g1, g2, g3,
        g4, g5, hp1, hp2, hp3, hp4, hp5, if_neg hr]

/-- Witness for C9: the line `1 2 3 4 5 go x` keeps `"go x"` (with its
inner space) verbatim as the command. -/
theorem c9_witness :
    ParseExpression (['1'] ++ ' ' :: (['2'] ++ ' ' :: (['3'] ++ ' ' ::
        (['4'] ++ ' ' :: (['5'] ++ ' ' :: ('g' :: 'o' :: ' ' :: 'x' :: [])))))) =
      .ok ⟨[1], [2], [3], [4], [5], 'g' :: 'o' :: ' ' :: 'x' :: []⟩ :=
  ((c9_command_handling.2 ['1'] ['2'] ['3'] ['4'] ['5']
      ('g' :: 'o' :: ' ' :: 'x' :: [])
      (by decide) (by decide) (by decide) (by decide) (by decide)).2
    [1] [2] [3] [4] [5]
      (by decide) (by decide) (by decide) (by decide) (by decide)).2
    (by decide)

end GoCron
